import Mathlib

/-!
Verification of the extraction core of `src/main.py` (Job_Scraper).

Strings are embedded as `List Char` (`Str`), character-wise, ASCII-faithful:
Python's `str.lower`, `str.strip`, `\s`, `\w`, `\d`, `[A-Za-z]` are modelled
on ASCII code points, which covers every string the program's own literals
and the claims use.

Parsed markup is embedded as a tree of nodes (`Node`): the Python code hands
the raw markup to BeautifulSoup and then works on the parsed tree, so the
embedding takes the tree as the markup value; where the source applies a
regular expression to the raw markup string (the dispatcher's content sniff,
`is_linkedin_search_page`), the embedding searches the tree's serialization.

Two pieces of ambient state are explicit parameters:
  * `fs : Str → Bool` stands for `os.path.exists` in `is_local_path`;
  * `enum : List Str → List Str` stands for the iteration order of the
    Python `set` in `extract_generic` (CPython string-set iteration order is
    unspecified / hash-randomized); a lawful order is any permutation, which
    theorems state as `(enum l).Perm l` where it matters.
-/

namespace JobScraper

abbrev Str := List Char

/-- ASCII whitespace, the code points Python's `\s` and `str.strip()` use on
ASCII text: space, tab, newline, carriage return, vertical tab, form feed. -/
def isWS (c : Char) : Bool :=
  c.toNat == 32 || c.toNat == 9 || c.toNat == 10 || c.toNat == 13 ||
  c.toNat == 11 || c.toNat == 12

def isDigitC (c : Char) : Bool := 48 ≤ c.toNat && c.toNat ≤ 57

def isAlphaC (c : Char) : Bool :=
  (65 ≤ c.toNat && c.toNat ≤ 90) || (97 ≤ c.toNat && c.toNat ≤ 122)

/-- Python `\w` on ASCII: letters, digits, underscore. -/
def isWordC (c : Char) : Bool := isAlphaC c || isDigitC c || c.toNat == 95

/-- ASCII `str.lower`: map A–Z to a–z, leave the rest. -/
def lowerChar (c : Char) : Char :=
  if 65 ≤ c.toNat && c.toNat ≤ 90 then Char.ofNat (c.toNat + 32) else c

def lowerStr (s : Str) : Str := s.map lowerChar

/-- Strip characters satisfying `p` from both ends (Python `str.strip(set)`). -/
def stripP (p : Char → Bool) (l : Str) : Str :=
  ((l.dropWhile p).reverse.dropWhile p).reverse

def stripWS (l : Str) : Str := stripP isWS l

/-- Substring test: Python's `pat in s` / `re.search` on a literal pattern. -/
def containsSub (s pat : Str) : Bool :=
  (List.tails s).any (fun t => pat.isPrefixOf t)

/-- Case-insensitive substring test: `re.search(pat, s, re.I)` on a literal. -/
def containsCI (s pat : Str) : Bool := containsSub (lowerStr s) (lowerStr pat)

/-! ### `clean_company_name` (src/main.py lines 126–129)

```python
def clean_company_name(s: str) -> str:
    s = re.sub(r"\s+", " ", s).strip(" -|\n\t\r")
    s = re.sub(r"\s*\|\s*(LinkedIn|Indeed|Glassdoor|Monster).*?$", "", s, flags=re.I)
    return s.strip()
```
-/

/-- `re.sub(r"\s+", " ", s)`: each maximal whitespace run becomes one space.
The flag records whether the current position is inside a run already
replaced. -/
def collapseAux : Bool → Str → Str
  | _, [] => []
  | inWS, c :: cs =>
    if isWS c then
      if inWS then collapseAux true cs else ' ' :: collapseAux true cs
    else c :: collapseAux false cs

def collapseWS (s : Str) : Str := collapseAux false s

/-- The strip set of `"... .strip(\" -|\\n\\t\\r\")"`. -/
def inSet1 (c : Char) : Bool :=
  c == ' ' || c == '-' || c == '|' || c == '\n' || c == '\t' || c == '\r'

def brands : List Str :=
  ["linkedin".toList, "indeed".toList, "glassdoor".toList, "monster".toList]

/-- Does `\s*\|\s*(LinkedIn|Indeed|Glassdoor|Monster)` match at the head of
`l` (case-insensitively)?  `\s*` before `|` is forced to take the whole
whitespace run since `|` is not whitespace.  The regex's trailing `.*?$` then
consumes everything to the end of the string: `clean_company_name` applies
this pattern only to whitespace-collapsed text, which contains no newline,
so `.`/`$` subtleties are void and a match removes the whole suffix. -/
def pipeBrandAt (l : Str) : Bool :=
  match l.dropWhile isWS with
  | c :: rest =>
    c == '|' && brands.any (fun b => b.isPrefixOf (lowerStr (rest.dropWhile isWS)))
  | [] => false

/-- `re.sub(r"\s*\|\s*(Brand).*?$", "", s)`: cut at the leftmost match. -/
def subBrand : Str → Str
  | [] => []
  | c :: cs => if pipeBrandAt (c :: cs) then [] else c :: subBrand cs

def clean_company_name (s : Str) : Str :=
  stripWS (subBrand (stripP inSet1 (collapseWS s)))

/-! ### `looks_like_noise` (src/main.py lines 132–149)

The three `re.search` calls are embedded as explicit scans with Python `re`
word-boundary (`\b`) semantics over ASCII word characters; `.` does not
match a newline. -/

/-- Is there a word boundary between `prev` (the previous character, `none`
at the start of the string) and a word character here? -/
def boundaryB (prev : Option Char) : Bool :=
  match prev with
  | none => true
  | some c => !isWordC c

def nonWordOrEnd : Str → Bool
  | [] => true
  | c :: _ => !isWordC c

/-- `\bjobs?\b` matches at the head of `l` (input already lowercased). -/
def jobsAt (prev : Option Char) (l : Str) : Bool :=
  boundaryB prev &&
    (("jobs".toList.isPrefixOf l && nonWordOrEnd (l.drop 4)) ||
     ("job".toList.isPrefixOf l && nonWordOrEnd (l.drop 3)))

/-- Search for `\bjobs?\b` reachable through `.*` (which cannot cross a
newline). -/
def searchJobsNoNL : Option Char → Str → Bool
  | _, [] => false
  | prev, c :: cs => jobsAt prev (c :: cs) || (!(c == '\n') && searchJobsNoNL (some c) cs)

/-- After `\b\d+` has consumed up to `lastD`, finish `\d+\b.*\bjobs?\b`:
extend the digit run, then require a non-word character (the `\b`; a word
character here kills every end of this run), then search for the jobs
token. -/
def afterNum (lastD : Char) : Str → Bool
  | [] => false
  | c :: cs =>
    if isDigitC c then afterNum c cs
    else if isWordC c then false
    else searchJobsNoNL (some lastD) (c :: cs)

/-- `re.search(r"\b\d+\b.*\bjobs?\b", low)`. -/
def numThenJobs : Option Char → Str → Bool
  | _, [] => false
  | prev, c :: cs =>
    (boundaryB prev && isDigitC c && afterNum c cs) || numThenJobs (some c) cs

/-- `tok` as a `\b`-delimited word at the head of `l`. -/
def tokAt (prev : Option Char) (tok : Str) (l : Str) : Bool :=
  boundaryB prev && tok.isPrefixOf l && nonWordOrEnd (l.drop tok.length)

/-- `re.search(r"\b(apply|hiring|careers?)\b", low)`. -/
def searchCTA : Option Char → Str → Bool
  | _, [] => false
  | prev, c :: cs =>
    tokAt prev "apply".toList (c :: cs) || tokAt prev "hiring".toList (c :: cs) ||
    tokAt prev "careers".toList (c :: cs) || tokAt prev "career".toList (c :: cs) ||
    searchCTA (some c) cs

/-- Continue `[A-Za-z]{3,}\s` past the first three letters: more letters,
then a whitespace character. -/
def wsAfterLetters : Str → Bool
  | [] => false
  | c :: cs => isWS c || (isAlphaC c && wsAfterLetters cs)

/-- `[A-Za-z]{3,}\s` matches at the head of `l`. -/
def l3At : Str → Bool
  | a :: b :: c :: rest => isAlphaC a && isAlphaC b && isAlphaC c && wsAfterLetters rest
  | _ => false

/-- `re.search(r"[A-Za-z]{3,}\s", low)`. -/
def searchL3 : Str → Bool
  | [] => false
  | c :: cs => l3At (c :: cs) || searchL3 cs

def looks_like_noise (name : Str) : Bool :=
  let n := stripWS name
  if n.length < 2 then true
  else
    let low := lowerStr n
    if containsSub low ("jobs in".toList) then true
    else if numThenJobs none low then true
    else if searchCTA none low && !searchL3 low then true
    else false

/-! ### `dedupe_preserve_order` (src/main.py lines 152–161) -/

/-- The dedupe key: `x.lower().strip()`. -/
def key (x : Str) : Str := stripWS (lowerStr x)

/-- The loop of `dedupe_preserve_order`; `seen` (a Python `set`, used only
for membership) is carried as a list of keys. -/
def dedupeGo (seen : List Str) : List Str → List Str
  | [] => []
  | x :: xs =>
    if (key x).isEmpty || seen.contains (key x) then dedupeGo seen xs
    else stripWS x :: dedupeGo (key x :: seen) xs

def dedupe_preserve_order (items : List Str) : List Str := dedupeGo [] items

/-! ### Parsed markup

The Python code parses the raw markup with BeautifulSoup and then only uses
the parsed tree (CSS selection, `get_text`, `find`, `.title`) plus raw-string
regex searches.  The embedding takes the tree as the markup value and
serializes it back (`serialize`) where the source searches the raw string. -/

mutual
inductive Node where
  | elem (tag : Str) (attrs : List (Str × Str)) (children : NodeL)
  | txt (s : Str)
inductive NodeL where
  | nil
  | cons (hd : Node) (tl : NodeL)
end

/-- A document is a forest of nodes.  (`NodeL` instead of `List Node` keeps
every recursion over the tree structural, hence computable by the kernel.) -/
abbrev Doc := NodeL

/-- Build a `NodeL` from a list (used to write concrete documents). -/
def nl : List Node → NodeL
  | [] => NodeL.nil
  | n :: ns => NodeL.cons n (nl ns)

def getAttr (attrs : List (Str × Str)) (name : Str) : Option Str :=
  (attrs.find? (fun p => p.1 == name)).map (fun p => p.2)

/-- Split on whitespace runs, dropping empties (HTML `class` tokenizer). -/
def splitWSAux (acc : Str) : Str → List Str
  | [] => if acc.isEmpty then [] else [acc.reverse]
  | c :: cs =>
    if isWS c then
      if acc.isEmpty then splitWSAux [] cs else acc.reverse :: splitWSAux [] cs
    else splitWSAux (c :: acc) cs

def clsOf (attrs : List (Str × Str)) : List Str :=
  splitWSAux [] ((getAttr attrs ("class".toList)).getD [])

/-- One attribute condition of a CSS compound selector. -/
inductive AttrCond where
  | present (name : Str)
  | equals (name : Str) (val : Str)
  | containsV (name : Str) (val : Str)

/-- A CSS compound selector: optional tag, required classes, optional id,
attribute conditions. -/
structure Simple where
  tag : Option Str
  cls : List Str
  idA : Option Str
  conds : List AttrCond

/-- A selector: compound selectors joined by the descendant combinator. -/
abbrev Sel := List Simple

def condHolds (attrs : List (Str × Str)) : AttrCond → Bool
  | AttrCond.present n => (getAttr attrs n).isSome
  | AttrCond.equals n v => getAttr attrs n == some v
  | AttrCond.containsV n v =>
    match getAttr attrs n with
    | some w => containsSub w v
    | none => false

def matchesSimple (s : Simple) (tag : Str) (attrs : List (Str × Str)) : Bool :=
  (match s.tag with | none => true | some t => t == tag) &&
  s.cls.all (fun c => (clsOf attrs).contains c) &&
  (match s.idA with | none => true | some i => getAttr attrs ("id".toList) == some i) &&
  s.conds.all (condHolds attrs)

/-! `soup.select("g₁, g₂, …")`: all elements of the forest (in document,
i.e. preorder, order) matched by some group.  `active` carries the selector
suffixes whose earlier compounds were matched by proper ancestors; a fresh
attempt at every group starts at every element, and matches never include
the scope root (`select` on a tag searches its descendants only). -/
mutual
def selNode (groups : List Sel) (active : List Sel) : Node → List Node
  | Node.txt _ => []
  | Node.elem t a ch =>
    let prog := (groups ++ active).filterMap (fun su =>
      match su with
      | [] => none
      | s :: rest => if matchesSimple s t a then some rest else none)
    (if prog.any (fun su => su.isEmpty) then [Node.elem t a ch] else []) ++
      selNodes groups (active ++ prog.filter (fun su => !su.isEmpty)) ch
def selNodes (groups : List Sel) (active : List Sel) : NodeL → List Node
  | NodeL.nil => []
  | NodeL.cons n ns => selNode groups active n ++ selNodes groups active ns
end

def selectG (groups : List Sel) (d : Doc) : List Node := selNodes groups [] d

def selectOne (groups : List Sel) (d : Doc) : Option Node := (selectG groups d).head?

/-! `get_text(strip=True)`: every descendant string, each stripped, joined. -/
mutual
def textsOfN : Node → List Str
  | Node.txt s => [s]
  | Node.elem _ _ ch => textsOf ch
def textsOf : NodeL → List Str
  | NodeL.nil => []
  | NodeL.cons n ns => textsOfN n ++ textsOf ns
end

def getTextStrip (n : Node) : Str := ((textsOfN n).map stripWS).flatten

/-! First element with the given tag, in document order (`soup.title`,
`soup.find("meta", ...)` with an extra attribute condition). -/
mutual
def findElemN (p : Str → List (Str × Str) → Bool) : Node → Option Node
  | Node.txt _ => none
  | Node.elem t a ch =>
    if p t a then some (Node.elem t a ch) else findElem p ch
def findElem (p : Str → List (Str × Str) → Bool) : NodeL → Option Node
  | NodeL.nil => none
  | NodeL.cons n ns =>
    match findElemN p n with
    | some r => some r
    | none => findElem p ns
end

def findTitle (d : Doc) : Option Node := findElem (fun t _ => t == "title".toList) d

/-- `soup.find("meta", attrs={key: v})`. -/
def findMeta (akey : Str) (v : Str) (d : Doc) : Option Node :=
  findElem (fun t a => t == "meta".toList && getAttr a akey == some v) d

/-! Serialization of the tree, standing for the raw markup string where the
source applies `re.search` to it. -/

def serializeAttrs : List (Str × Str) → Str
  | [] => []
  | (n, v) :: rest => ' ' :: (n ++ '=' :: '"' :: v ++ '"' :: serializeAttrs rest)

mutual
def serializeN : Node → Str
  | Node.txt s => s
  | Node.elem t a ch =>
    '<' :: (t ++ serializeAttrs a ++ '>' :: (serialize ch ++ '<' :: '/' :: (t ++ ['>'])))
def serialize : NodeL → Str
  | NodeL.nil => []
  | NodeL.cons n ns => serializeN n ++ serialize ns
end

/-! ### Selector abbreviations -/

def sTag (t : String) : Simple := ⟨some t.toList, [], none, []⟩
def sCls (c : String) : Simple := ⟨none, [c.toList], none, []⟩
def sTagCls (t c : String) : Simple := ⟨some t.toList, [c.toList], none, []⟩
def sId (i : String) : Simple := ⟨none, [], some i.toList, []⟩
def sAttrP (n : String) : Simple := ⟨none, [], none, [AttrCond.present n.toList]⟩

/-! ### `domain` (src/main.py lines 117–122)

`urlparse(u).netloc`: an initial `scheme:` (a letter followed by letters,
digits, `+`, `-`, `.`) is removed; the netloc is present exactly when the
remainder starts with `//`, and runs to the first `/`, `?` or `#`. -/

def isSchemeChar (c : Char) : Bool := isAlphaC c || isDigitC c || c == '+' || c == '-' || c == '.'

/-- Split at the first `:`: `some (before, after)`, or `none` without one. -/
def findColon : Str → Option (Str × Str)
  | [] => none
  | c :: cs =>
    if c == ':' then some ([], cs)
    else (findColon cs).map (fun p => (c :: p.1, p.2))

def afterScheme (u : Str) : Str :=
  match findColon u with
  | some (pre, post) =>
    match pre with
    | [] => u
    | p :: _ => if isAlphaC p && pre.all isSchemeChar then post else u
  | none => u

def netloc (u : Str) : Str :=
  let rest := afterScheme u
  if "//".toList.isPrefixOf rest then
    (rest.drop 2).takeWhile (fun c => !(c == '/' || c == '?' || c == '#'))
  else []

/-- `domain` lowercases the netloc and strips a leading `www.`; the
source's `try/except` around `urlparse` never fires on the inputs the model
admits, so the embedding is the plain computation. -/
def domain (u : Str) : Str :=
  let d := lowerStr (netloc u)
  if "www.".toList.isPrefixOf d then d.drop 4 else d

/-! ### Indeed extractor (src/main.py lines 165–209) -/

def indeedCardGroups : List Sel :=
  [[sAttrP "data-jk"], [sCls "job_seen_beacon"], [sCls "resultContent"],
   [sCls "tapItem"], [sCls "slider_container"]]

/-- The four fallback selectors tried inside a card, in order. -/
def indeedCardSels : List (List Sel) :=
  [[[⟨none, [], none, [AttrCond.equals ("data-testid".toList) ("company-name".toList)]⟩]],
   [[sCls "companyInfo", sTag "span"]],
   [[sCls "companyInfo", sTag "a"]],
   [[sCls "company_location", sCls "companyName"]]]

/-- The inner `for sel in [...]`: the first selector whose first match has
non-empty stripped text wins (`break`); a match with empty text falls
through to the next selector, as in the source. -/
def firstNonempty (sels : List (List Sel)) (ch : NodeL) : Option Str :=
  match sels with
  | [] => none
  | s :: rest =>
    match selectOne s ch with
    | some el => if (getTextStrip el).isEmpty then firstNonempty rest ch else some (getTextStrip el)
    | none => firstNonempty rest ch

/-- One search-listing card's contribution: `.companyName` first, then the
fallback selector list. -/
def cardName (card : Node) : List Str :=
  match card with
  | Node.txt _ => []
  | Node.elem _ _ ch =>
    match selectOne [[sCls "companyName"]] ch with
    | some el =>
      if (getTextStrip el).isEmpty then
        match firstNonempty indeedCardSels ch with
        | some t => [clean_company_name t]
        | none => []
      else [clean_company_name (getTextStrip el)]
    | none =>
      match firstNonempty indeedCardSels ch with
      | some t => [clean_company_name t]
      | none => []

/-- The six whole-document job-page selectors, in order; every match of
every selector contributes. -/
def indeedDocGroups : List (List Sel) :=
  [[[sCls "jobsearch-CompanyInfoContainer",
     ⟨some "a".toList, [], none, [AttrCond.equals ("data-tn-element".toList) ("companyName".toList)]⟩]],
   [[sId "companyInfo", sTag "a"]],
   [[sAttrP "data-company-name"]],
   [[⟨none, ["icl-u-lg-mr--sm".toList, "icl-u-xs-mr--xs".toList], none, []⟩]],
   [[sCls "jobsearch-CompanyInfoWithoutHeaderImage", sTag "div", sTag "a"]],
   [[sCls "jobsearch-InlineCompanyRating", sTag "div"]]]

def indeedDocNames (d : Doc) : List Str :=
  indeedDocGroups.flatMap (fun s =>
    (selectG s d).filterMap (fun el =>
      let t := getTextStrip el
      if t.isEmpty then none else some (clean_company_name t)))

/-- `title.split(" - ")` (exact three-character separator, keeps empties). -/
def splitDash (acc : Str) : Str → List Str
  | [] => [acc.reverse]
  | c :: cs =>
    if " - ".toList.isPrefixOf (c :: cs) then acc.reverse :: splitDash [] (cs.drop 2)
    else splitDash (c :: acc) cs
termination_by l => l.length
decreasing_by
  · simp [List.length_drop]; omega
  · simp

def titleText (d : Doc) : Str :=
  match findTitle d with
  | some n => getTextStrip n
  | none => []

/-- The `<title>` fallback: split on `" - "`, strip parts, drop empties,
take the second part if at least two remain. -/
def titleSecond (d : Doc) : List Str :=
  let title := titleText d
  if title.isEmpty then []
  else
    let parts := ((splitDash [] title).map stripWS).filter (fun p => !p.isEmpty)
    match parts.get? 1 with
    | some p => [clean_company_name p]
    | none => []

/-- The raw candidate cascade of `extract_from_indeed`, in source order. -/
def indeedCandidates (d : Doc) : List Str :=
  (selectG indeedCardGroups d).flatMap cardName ++ indeedDocNames d ++ titleSecond d

def extract_from_indeed (d : Doc) : List Str × String :=
  (dedupe_preserve_order
    ((indeedCandidates d).filter (fun n => !n.isEmpty && !looks_like_noise n)),
   "indeed")

/-! ### LinkedIn extractor (src/main.py lines 213–292) -/

def liSubtitleGroups : List Sel :=
  [[sTagCls "h4" "base-search-card__subtitle", sTag "a"],
   [sCls "base-search-card__subtitle", sTag "a"]]

def liAltGroups : List Sel :=
  [[sCls "job-card-container__primary-description"],
   [sCls "job-card-container__company-name"]]

/-- Third `select_one` step inside a result-list `<li>` (older variants). -/
def liNameAlt (ch : NodeL) : List Str :=
  match selectOne liAltGroups ch with
  | some alt =>
    if (getTextStrip alt).isEmpty then [] else [clean_company_name (getTextStrip alt)]
  | none => []

/-- Second `select_one` step inside a result-list `<li>` (subtitle without
anchor). -/
def liNameH4 (ch : NodeL) : List Str :=
  match selectOne [[sTagCls "h4" "base-search-card__subtitle"]] ch with
  | some h4 =>
    if (getTextStrip h4).isEmpty then liNameAlt ch else [clean_company_name (getTextStrip h4)]
  | none => liNameAlt ch

/-- One result-list `<li>`'s contribution, mirroring the three
`select_one`/`continue` steps of `linkedin_jobs_list_names`. -/
def liName (li : Node) : List Str :=
  match li with
  | Node.txt _ => []
  | Node.elem _ _ ch =>
    match selectOne liSubtitleGroups ch with
    | some a =>
      if (getTextStrip a).isEmpty then liNameH4 ch else [clean_company_name (getTextStrip a)]
    | none => liNameH4 ch

def linkedin_jobs_list_names (d : Doc) : List Str :=
  ((selectG [[sTagCls "ul" "jobs-search__results-list", sTag "li"]] d).flatMap liName).filter
    (fun n => !n.isEmpty && !(lowerStr n == "linkedin".toList) && !looks_like_noise n)

def is_linkedin_search_page (url : Str) (html : Str) : Bool :=
  if !containsSub (domain url) ("linkedin.com".toList) then false
  else if containsSub url ("/jobs/search".toList) then true
  else if containsCI html ("jobs-search__results-list".toList) then true
  else false

def topcardGroups : List (List Sel) :=
  [[[sTagCls "a" "topcard__org-name-link"]],
   [[sTagCls "a" "topcard__flavor"]],
   [[⟨some "a".toList, [], none, [AttrCond.containsV ("href".toList) ("/company/".toList)]⟩]],
   [[sTagCls "span" "topcard__flavor"]]]

def topcardNames (d : Doc) : List Str :=
  topcardGroups.flatMap (fun s =>
    (selectG s d).filterMap (fun el =>
      let t := getTextStrip el
      if !t.isEmpty && !(containsCI t ("sign in".toList) || containsCI t ("join now".toList)) then
        some (clean_company_name t)
      else none))

/-- One meta tag's contribution: find by `property=` then by `name=`, clean
the content, split on `" - "`, take the second part, clean again. -/
def metaName (mname : String) (d : Doc) : List Str :=
  let m :=
    match findMeta ("property".toList) mname.toList d with
    | some n => some n
    | none => findMeta ("name".toList) mname.toList d
  match m with
  | some (Node.elem _ a _) =>
    match getAttr a ("content".toList) with
    | some content =>
      if content.isEmpty then []
      else
        let cc := clean_company_name content
        let parts := ((splitDash [] cc).map stripWS).filter (fun p => !p.isEmpty)
        match parts.get? 1 with
        | some p => [clean_company_name p]
        | none => []
    | none => []
  | _ => []

def metaNames (d : Doc) : List Str :=
  metaName "og:title" d ++ metaName "twitter:title" d

/-- The full fallback cascade of `extract_from_linkedin`, in source order:
the results list is tried again, then topcard selectors, meta tags, title. -/
def linkedinCandidates (d : Doc) : List Str :=
  linkedin_jobs_list_names d ++ topcardNames d ++ metaNames d ++ titleSecond d

def llKeep (n : Str) : Bool :=
  !n.isEmpty && !(lowerStr n == "linkedin".toList) && !looks_like_noise n

def llFallback (d : Doc) : List Str × String :=
  (dedupe_preserve_order ((linkedinCandidates d).filter llKeep), "linkedin_fallback")

def extract_from_linkedin (d : Doc) (url : Str) : List Str × String :=
  if is_linkedin_search_page url (serialize d) then
    if !(linkedin_jobs_list_names d).isEmpty then
      (dedupe_preserve_order (linkedin_jobs_list_names d), "linkedin_list")
    else llFallback d
  else llFallback d

/-! ### Generic extractor (src/main.py lines 296–306) -/

def isSepC (c : Char) : Bool :=
  c == '-' || c == '|' || c == '•' || c == '–' || c == '—'

/-- `re.split(r"[-|•–—]", title)` (keeps empties; they are filtered next). -/
def splitSeps (acc : Str) : Str → List Str
  | [] => [acc.reverse]
  | c :: cs => if isSepC c then acc.reverse :: splitSeps [] cs else splitSeps (c :: acc) cs

/-- `re.search(r"(job|jobs|apply|hiring|careers?)", p, re.I)`: a plain
substring search (no word boundaries); `jobs` and `careers` are subsumed by
`job` and `career`. -/
def vocabHit (p : Str) : Bool :=
  containsCI p ("job".toList) || containsCI p ("apply".toList) ||
  containsCI p ("hiring".toList) || containsCI p ("career".toList)

/-- The Python `set` of cleaned parts, as its insertion-ordered carrier:
`insertSet` skips exact duplicates.  Iteration order over the set is the
explicit `enum` parameter of `extract_generic`. -/
def insertSet (l : List Str) (x : Str) : List Str :=
  if l.contains x then l else l ++ [x]

def genericSetList (d : Doc) : List Str :=
  let title := titleText d
  if title.isEmpty then []
  else
    let parts := ((splitSeps [] title).map stripWS).filter (fun p => !p.isEmpty)
    (parts.filter (fun p => !vocabHit p)).foldl (fun acc p => insertSet acc (clean_company_name p)) []

def extract_generic (enum : List Str → List Str) (d : Doc) : List Str × String :=
  (dedupe_preserve_order ((enum (genericSetList d)).filter (fun n => !looks_like_noise n)),
   "generic")

/-! ### Dispatcher (src/main.py lines 91–96, 310–322) -/

def is_local_path (fs : Str → Bool) (u : Str) : Bool :=
  if "file://".toList.isPrefixOf (lowerStr u) then true
  else if !containsSub u ("://".toList) && fs u then true
  else false

def extract_company_names (fs : Str → Bool) (enum : List Str → List Str)
    (url : Str) (d : Doc) : List Str × String :=
  if containsSub (domain url) ("indeed".toList) then extract_from_indeed d
  else if containsSub (domain url) ("linkedin".toList) then extract_from_linkedin d url
  else if is_local_path fs url then
    if containsCI (serialize d) ("indeed".toList) then extract_from_indeed d
    else if containsCI (serialize d) ("linkedin".toList) then extract_from_linkedin d url
    else extract_generic enum d
  else extract_generic enum d

/-! ### Concrete documents and inputs used by the claims' instances -/

/-- An Indeed single-job page whose company info block reads
`"  Acme   Corp  | Indeed"` and on which no other rule matches. -/
def docIndeed : Doc :=
  nl [Node.elem "div".toList [("id".toList, "companyInfo".toList)]
    (nl [Node.elem "a".toList [] (nl [Node.txt "  Acme   Corp  | Indeed".toList])])]

def urlIndeed : Str := "https://www.indeed.com/viewjob?jk=1".toList

/-- One LinkedIn results-list card with the company name in the subtitle. -/
def liCard (name : Str) : Node :=
  Node.elem "li".toList []
    (nl [Node.elem "h4".toList [("class".toList, "base-search-card__subtitle".toList)]
      (nl [Node.txt name])])

/-- A LinkedIn search page whose results list holds two cards with the same
company, plus a topcard element elsewhere in the markup. -/
def docDupe : Doc :=
  nl [Node.elem "ul".toList [("class".toList, "jobs-search__results-list".toList)]
        (nl [liCard "Acme".toList, liCard "Acme".toList]),
      Node.elem "a".toList [("class".toList, "topcard__org-name-link".toList)]
        (nl [Node.txt "Topcard Co".toList])]

/-- A LinkedIn search page whose results list holds two distinct cards. -/
def docPair : Doc :=
  nl [Node.elem "ul".toList [("class".toList, "jobs-search__results-list".toList)]
        (nl [liCard "Acme".toList, liCard "Globex".toList]),
      Node.elem "a".toList [("class".toList, "topcard__org-name-link".toList)]
        (nl [Node.txt "Topcard Co".toList])]

def urlLi : Str := "https://www.linkedin.com/jobs/search?keywords=x".toList

/-- Markup of a locally saved LinkedIn search snapshot: it contains the
results-list container marker. -/
def snapshotHtml : Str :=
  "<html><ul class=\"jobs-search__results-list\"><li>Acme</li></ul></html>".toList

def urlSnapshot : Str := "saved_linkedin_search.html".toList

/-- A generic page titled `"Senior Engineer - Acme Corp - Jobs"`. -/
def docSEA : Doc :=
  nl [Node.elem "title".toList [] (nl [Node.txt "Senior Engineer - Acme Corp - Jobs".toList])]

/-- A generic page whose title has no separator character. -/
def docNoSep : Doc :=
  nl [Node.elem "title".toList [] (nl [Node.txt "Welcome to Acme".toList])]

/-- A generic page titled `"Alpha - Beta"`. -/
def docAB : Doc :=
  nl [Node.elem "title".toList [] (nl [Node.txt "Alpha - Beta".toList])]

def urlGeneric : Str := "https://example.com/careers/page".toList

/-- Markup that mentions both engines, for the local-file content sniff. -/
def docBoth : Doc :=
  nl [Node.txt "saved from indeed and linkedin".toList,
      Node.elem "title".toList [] (nl [Node.txt "Acme Corp".toList])]

/-- Markup that mentions only LinkedIn. -/
def docOnlyLi : Doc :=
  nl [Node.txt "saved from linkedin".toList,
      Node.elem "title".toList [] (nl [Node.txt "Acme Corp".toList])]

/-- Markup that mentions neither engine. -/
def docNeither : Doc :=
  nl [Node.elem "title".toList [] (nl [Node.txt "Acme Corp".toList])]

/-- A file system on which exactly `saved_page.html` exists. -/
def fsOne : Str → Bool := fun u => u == "saved_page.html".toList

def urlLocal : Str := "saved_page.html".toList

/-! ### Predicates used to reason about the normalizer -/

/-- Whitespace-collapsed text: every whitespace character is a space and no
two spaces are adjacent (this characterizes the image of `collapseWS`). -/
def Collapsed (l : Str) : Prop :=
  (∀ c ∈ l, isWS c = true → c = ' ') ∧
  List.Chain' (fun a b => ¬(a = ' ' ∧ b = ' ')) l

/-- No suffix of `l` begins with the pipe-brand pattern, i.e. the brand
regex of `clean_company_name` matches nowhere in `l`. -/
def NoPB (l : Str) : Prop := ∀ t, t <:+ l → pipeBrandAt t = false

/-! ### Character-level lemmas -/

theorem toNat_lowerChar_of_upper (c : Char) (h1 : 65 ≤ c.toNat) (h2 : c.toNat ≤ 90) :
    (lowerChar c).toNat = c.toNat + 32 := by
  have hv : (c.toNat + 32).isValidChar := Or.inl (by omega)
  unfold lowerChar
  rw [if_pos (by simp only [Bool.and_eq_true, decide_eq_true_eq]; exact ⟨h1, h2⟩)]
  unfold Char.ofNat
  rw [dif_pos hv]
  rfl

theorem isWS_of_toNat (n : Nat) (h1 : 65 ≤ n) (h2 : n ≤ 122) :
    (n == 32 || n == 9 || n == 10 || n == 13 || n == 11 || n == 12) = false := by
  simp only [Bool.or_eq_false_iff, beq_eq_false_iff_ne, ne_eq]
  omega

theorem isWS_lowerChar (c : Char) : isWS (lowerChar c) = isWS c := by
  by_cases h : 65 ≤ c.toNat ∧ c.toNat ≤ 90
  · have ht := toNat_lowerChar_of_upper c h.1 h.2
    unfold isWS
    rw [ht, isWS_of_toNat _ (by omega) (by omega), isWS_of_toNat _ (by omega) (by omega)]
  · unfold lowerChar
    rw [if_neg (by simp only [Bool.and_eq_true, decide_eq_true_eq]; exact h)]

/-! ### `stripP` lemmas -/

theorem head_dropWhile_not (p : Char → Bool) (l : Str) (c : Char)
    (h : (l.dropWhile p).head? = some c) : p c = false := by
  have := List.head?_dropWhile_not p l
  rw [h] at this
  exact this

theorem getLast?_dropWhile (p : Char → Bool) (l : Str) :
    l.dropWhile p = [] ∨ (l.dropWhile p).getLast? = l.getLast? := by
  induction l with
  | nil => exact Or.inl rfl
  | cons c cs ih =>
    by_cases hp : p c
    · by_cases hd : cs.dropWhile p = []
      · exact Or.inl (by rw [List.dropWhile_cons, if_pos hp, hd])
      · right
        rw [List.dropWhile_cons, if_pos hp]
        rcases ih with h | h
        · exact absurd h hd
        · rw [h]
          cases cs with
          | nil => exact absurd rfl hd
          | cons d ds => rw [List.getLast?_cons_cons]
    · exact Or.inr (by rw [List.dropWhile_cons, if_neg hp])

theorem stripP_getLast (p : Char → Bool) (l : Str) (c : Char)
    (h : (stripP p l).getLast? = some c) : p c = false := by
  unfold stripP at h
  rw [List.getLast?_reverse] at h
  exact head_dropWhile_not p _ c h

theorem stripP_head (p : Char → Bool) (l : Str) (c : Char)
    (h : (stripP p l).head? = some c) : p c = false := by
  unfold stripP at h
  rw [List.head?_reverse] at h
  rcases getLast?_dropWhile p (l.dropWhile p).reverse with he | he
  · rw [he] at h
    simp at h
  · rw [he, List.getLast?_reverse] at h
    exact head_dropWhile_not p l c h

theorem dropWhile_eq_self_of_head (p : Char → Bool) (l : Str)
    (h : ∀ c, l.head? = some c → p c = false) : l.dropWhile p = l := by
  cases l with
  | nil => rfl
  | cons c cs => rw [List.dropWhile_cons, if_neg (by rw [h c rfl]; simp)]

theorem stripP_eq_self (p : Char → Bool) (l : Str)
    (hh : ∀ c, l.head? = some c → p c = false)
    (hl : ∀ c, l.getLast? = some c → p c = false) : stripP p l = l := by
  unfold stripP
  rw [dropWhile_eq_self_of_head p l hh]
  rw [dropWhile_eq_self_of_head p l.reverse (fun c hc => hl c (by rwa [List.head?_reverse] at hc))]
  exact List.reverse_reverse l

theorem stripP_idem (p : Char → Bool) (l : Str) : stripP p (stripP p l) = stripP p l :=
  stripP_eq_self p _ (stripP_head p l) (stripP_getLast p l)

theorem stripWS_stripWS (l : Str) : stripWS (stripWS l) = stripWS l := stripP_idem isWS l

theorem lowerStr_stripWS (x : Str) : lowerStr (stripWS x) = stripWS (lowerStr x) := by
  unfold stripWS stripP lowerStr
  have hf : (fun c => isWS (lowerChar c)) = isWS := funext isWS_lowerChar
  simp only [List.dropWhile_map, Function.comp_def, hf, ← List.map_reverse]

theorem key_stripWS (x : Str) : key (stripWS x) = key x := by
  unfold key
  rw [lowerStr_stripWS, stripWS_stripWS]

/-! ### `dedupe_preserve_order` lemmas -/

theorem contains_iff_mem (l : List Str) (k : Str) : l.contains k = true ↔ k ∈ l := by
  simp [List.contains, List.elem_iff]

theorem dedupeGo_mem (seen : List Str) (l : List Str) (z : Str)
    (h : z ∈ dedupeGo seen l) : ∃ x ∈ l, z = stripWS x := by
  induction l generalizing seen with
  | nil => exact absurd h (by simp [dedupeGo])
  | cons x xs ih =>
    rw [dedupeGo] at h
    split at h
    · obtain ⟨w, hw, hz⟩ := ih seen h
      exact ⟨w, List.mem_cons_of_mem x hw, hz⟩
    · rcases List.mem_cons.1 h with hz | hz
      · exact ⟨x, List.mem_cons_self x xs, hz⟩
      · obtain ⟨w, hw, hzz⟩ := ih (key x :: seen) hz
        exact ⟨w, List.mem_cons_of_mem x hw, hzz⟩

theorem dedupeGo_sound (seen : List Str) (l : List Str) :
    (∀ z ∈ dedupeGo seen l, stripWS z = z ∧ key z ≠ [] ∧ key z ∉ seen) ∧
    (dedupeGo seen l).Pairwise (fun a b => key a ≠ key b) := by
  induction l generalizing seen with
  | nil => exact ⟨by simp [dedupeGo], by simp [dedupeGo]⟩
  | cons x xs ih =>
    rw [dedupeGo]
    split
    · exact ih seen
    · rename_i hguard
      rw [Bool.or_eq_true, not_or] at hguard
      obtain ⟨hke, hkc⟩ := hguard
      have hknil : key x ≠ [] := by
        intro he
        exact hke (by simp [he])
      have hkseen : key x ∉ seen := fun hm => hkc ((contains_iff_mem seen (key x)).2 hm)
      obtain ⟨ihm, ihp⟩ := ih (key x :: seen)
      constructor
      · intro z hz
        rcases List.mem_cons.1 hz with hz | hz
        · subst hz
          exact ⟨stripWS_stripWS x, by rw [key_stripWS]; exact hknil,
                 by rw [key_stripWS]; exact hkseen⟩
        · obtain ⟨h1, h2, h3⟩ := ihm z hz
          exact ⟨h1, h2, fun hm => h3 (List.mem_cons_of_mem _ hm)⟩
      · refine List.Pairwise.cons ?_ ihp
        intro z hz
        obtain ⟨_, _, h3⟩ := ihm z hz
        rw [key_stripWS]
        intro he
        exact h3 (he ▸ List.mem_cons_self (key x) seen)

theorem dedupeGo_eq_self (seen : List Str) (l : List Str)
    (h1 : ∀ z ∈ l, stripWS z = z ∧ key z ≠ [] ∧ key z ∉ seen)
    (h2 : l.Pairwise (fun a b => key a ≠ key b)) : dedupeGo seen l = l := by
  induction l generalizing seen with
  | nil => rfl
  | cons x xs ih =>
    obtain ⟨hs, hk, hns⟩ := h1 x (List.mem_cons_self x xs)
    rw [dedupeGo, if_neg, hs]
    · congr 1
      refine ih (key x :: seen) ?_ (List.Pairwise.of_cons h2)
      intro z hz
      obtain ⟨z1, z2, z3⟩ := h1 z (List.mem_cons_of_mem x hz)
      refine ⟨z1, z2, ?_⟩
      intro hm
      rcases List.mem_cons.1 hm with hm | hm
      · exact (List.rel_of_pairwise_cons h2 hz) hm.symm
      · exact z3 hm
    · rw [Bool.or_eq_true, not_or]
      constructor
      · simpa using hk
      · intro hc
        exact hns ((contains_iff_mem seen (key x)).1 hc)

theorem dedupe_idem (l : List Str) :
    dedupe_preserve_order (dedupe_preserve_order l) = dedupe_preserve_order l := by
  obtain ⟨hm, hp⟩ := dedupeGo_sound [] l
  exact dedupeGo_eq_self [] _ (fun z hz => ⟨(hm z hz).1, (hm z hz).2.1, by simp⟩) hp

theorem dedupeGo_sublist (seen : List Str) (l : List Str) :
    (dedupeGo seen l).Sublist (l.map stripWS) := by
  induction l generalizing seen with
  | nil => simp [dedupeGo]
  | cons x xs ih =>
    rw [dedupeGo]
    split
    · exact List.Sublist.cons (stripWS x) (ih seen)
    · exact List.Sublist.cons₂ (stripWS x) (ih (key x :: seen))

theorem dedupeGo_skip (seen : List Str) (l2 : List Str) (y : Str) (l3 : List Str)
    (h : key y = [] ∨ key y ∈ seen) :
    dedupeGo seen (l2 ++ y :: l3) = dedupeGo seen (l2 ++ l3) := by
  induction l2 generalizing seen with
  | nil =>
    simp only [List.nil_append]
    rw [dedupeGo, if_pos]
    rcases h with h | h
    · simp [h]
    · rw [Bool.or_eq_true]
      exact Or.inr ((contains_iff_mem seen (key y)).2 h)
  | cons x xs ih =>
    simp only [List.cons_append]
    rw [dedupeGo, dedupeGo]
    split
    · exact ih seen h
    · rw [ih (key x :: seen) (h.imp id (List.mem_cons_of_mem (key x)))]

theorem dedupeGo_dup (seen : List Str) (l1 : List Str) (x : Str) (l2 : List Str)
    (y : Str) (l3 : List Str) (hxy : key x = key y) :
    dedupeGo seen (l1 ++ x :: l2 ++ y :: l3) = dedupeGo seen (l1 ++ x :: (l2 ++ l3)) := by
  induction l1 generalizing seen with
  | nil =>
    simp only [List.nil_append, List.cons_append]
    rw [dedupeGo, dedupeGo]
    split
    · rename_i hguard
      rw [Bool.or_eq_true] at hguard
      refine dedupeGo_skip seen l2 y l3 ?_
      rcases hguard with h | h
      · exact Or.inl (by rw [← hxy]; exact List.isEmpty_iff.1 h)
      · exact Or.inr (by rw [← hxy]; exact (contains_iff_mem seen (key x)).1 h)
    · rw [dedupeGo_skip (key x :: seen) l2 y l3
        (Or.inr (hxy ▸ List.mem_cons_self (key x) seen))]
  | cons w ws ih =>
    simp only [List.cons_append]
    rw [dedupeGo, dedupeGo]
    split
    · exact ih seen
    · rw [ih (key w :: seen)]

/-- A permutation of a two-element list is one of its two arrangements. -/
theorem perm_pair (a b : Str) (l : List Str) (h : l.Perm [a, b]) :
    l = [a, b] ∨ l = [b, a] := by
  have hlen := h.length_eq
  match l, hlen with
  | [x, y], _ =>
    have hx : x ∈ [a, b] := h.mem_iff.1 (List.mem_cons_self x [y])
    rcases List.mem_cons.1 hx with hx | hx
    · subst hx
      left
      have hy := List.perm_singleton.1 (h.cons_inv)
      rw [hy]
    · have hx2 : x = b := by simpa using hx
      subst hx2
      right
      have h2 : List.Perm [x, y] [x, a] := h.trans (List.Perm.swap x a [])
      have hy := List.perm_singleton.1 (h2.cons_inv)
      rw [hy]

/-! ### Extractor-level helper lemmas -/

theorem extract_from_indeed_nil : extract_from_indeed NodeL.nil = ([], "indeed") := rfl

theorem extract_from_linkedin_nil (url : Str) :
    extract_from_linkedin NodeL.nil url = ([], "linkedin_fallback") := by
  unfold extract_from_linkedin
  cases hs : is_linkedin_search_page url (serialize NodeL.nil) with
  | false => rfl
  | true => rfl

theorem extract_generic_nil (enum : List Str → List Str) (henum : ∀ l, (enum l).Perm l) :
    extract_generic enum NodeL.nil = ([], "generic") := by
  have h0 : enum [] = [] := List.perm_nil.1 (henum [])
  unfold extract_generic
  have hset : genericSetList NodeL.nil = [] := rfl
  rw [hset, h0]
  rfl

theorem extract_from_linkedin_prov (d : Doc) (url : Str) :
    (extract_from_linkedin d url).2 = "linkedin_list" ∨
    (extract_from_linkedin d url).2 = "linkedin_fallback" := by
  unfold extract_from_linkedin
  split
  · split
    · exact Or.inl rfl
    · exact Or.inr rfl
  · exact Or.inr rfl

/-! ### Claim theorems -/

/-- C8: the noise classifier rejects the aggregate results-count string,
the bare call-to-action words "Apply" and "Hiring", and accepts "Acme Corp"
and "Smith & Sons Apply Logistics" (a CTA token inside a longer brand
phrase). -/
theorem claim_C8 :
    looks_like_noise ("208 EDM Operator AND Machinist jobs in United States".toList) = true ∧
    looks_like_noise ("Apply".toList) = true ∧
    looks_like_noise ("Hiring".toList) = true ∧
    looks_like_noise ("Acme Corp".toList) = false ∧
    looks_like_noise ("Smith & Sons Apply Logistics".toList) = false := by
  decide

/-- C9: on an Indeed single-job page whose company info block's text is
`"  Acme   Corp  | Indeed"`, and on which no other extraction rule yields a
candidate, `extract` returns exactly `["Acme Corp"]` with provenance
`indeed`. -/
theorem claim_C9 :
    extract_company_names (fun _ => false) id urlIndeed docIndeed =
      (["Acme Corp".toList], "indeed") := by
  decide

/-- C6 counterexample: the normalizer is not idempotent.  On
`"Acme - | LinkedIn"` the first pass strips the `"| LinkedIn"` suffix and
leaves `"Acme -"`, whose trailing `" -"` only the second pass removes. -/
theorem claim_C6_cx :
    clean_company_name (clean_company_name ("Acme - | LinkedIn".toList)) ≠
      clean_company_name ("Acme - | LinkedIn".toList) := by
  decide

/-- C1 counterexample: a LinkedIn search page whose results list yields
N = 2 non-noise names ("Acme" twice, one per card) from which `extract`
returns only 1 name: the result is the case-insensitive deduplication of
the list, not always exactly N names. -/
theorem claim_C1_cx :
    is_linkedin_search_page urlLi (serialize docDupe) = true ∧
    (linkedin_jobs_list_names docDupe).length = 2 ∧
    (extract_from_linkedin docDupe urlLi).1.length = 1 ∧
    (extract_from_linkedin docDupe urlLi).2 = "linkedin_list" := by
  decide

/-- C3 (code evaluated at the failing input): a locally saved snapshot's
markup contains the results-list container marker, yet the detector returns
false, because its first check requires "linkedin.com" in the URL's host and
a local path has an empty host. -/
theorem claim_C3 :
    containsCI snapshotHtml ("jobs-search__results-list".toList) = true ∧
    domain urlSnapshot = [] ∧
    is_linkedin_search_page urlSnapshot snapshotHtml = false := by
  decide

/-- C4 counterexample: the generic extractor iterates a Python `set`
(modelled by the `enum` parameter), so a lawful set-iteration order — here
the reversal, a permutation of the set's elements — yields the output
`["Beta", "Alpha"]`, while the cascade produced the candidates in first-seen
order `["Alpha", "Beta"]`. -/
theorem claim_C4_cx :
    (List.reverse (genericSetList docAB)).Perm (genericSetList docAB) ∧
    genericSetList docAB = ["Alpha".toList, "Beta".toList] ∧
    extract_company_names (fun _ => false) List.reverse urlGeneric docAB =
      (["Beta".toList, "Alpha".toList], "generic") := by
  decide

/-- C5 counterexample: a generic page whose title `"Welcome to Acme"`
contains no separator character does not yield an empty result: the whole
title survives as the single candidate. -/
theorem claim_C5_cx :
    (titleText docNoSep).all (fun c => !isSepC c) = true ∧
    extract_company_names (fun _ => false) id urlGeneric docNoSep =
      (["Welcome to Acme".toList], "generic") := by
  decide

/-- C7: the deduplicator is idempotent (its output is a fixed point), its
output is a subsequence of the stripped input (order-preserving), no two
output elements share the lowercase-trimmed key, every output element is
trimmed with a non-empty key; of two key-equal elements only the first
occurrence matters, and a whitespace-only element is always discarded. -/
theorem claim_C7 (l l1 l2 l3 l4 : List Str) (x y w : Str)
    (hxy : key x = key y) (hw : key w = []) :
    dedupe_preserve_order (dedupe_preserve_order l) = dedupe_preserve_order l ∧
    (dedupe_preserve_order l).Sublist (l.map stripWS) ∧
    (dedupe_preserve_order l).Pairwise (fun a b => key a ≠ key b) ∧
    (∀ z ∈ dedupe_preserve_order l, stripWS z = z ∧ key z ≠ []) ∧
    dedupe_preserve_order (l1 ++ x :: l2 ++ y :: l3) =
      dedupe_preserve_order (l1 ++ x :: (l2 ++ l3)) ∧
    dedupe_preserve_order (l4 ++ w :: l3) = dedupe_preserve_order (l4 ++ l3) := by
  obtain ⟨hm, hp⟩ := dedupeGo_sound [] l
  refine ⟨dedupe_idem l, dedupeGo_sublist [] l, hp,
    fun z hz => ⟨(hm z hz).1, (hm z hz).2.1⟩,
    dedupeGo_dup [] l1 x l2 y l3 hxy,
    dedupeGo_skip [] l4 w l3 (Or.inl hw)⟩

/-- C7 witness at concrete inputs: "Acme" and "acme " share a key, " " has
an empty key. -/
theorem claim_C7_witness :
    dedupe_preserve_order (dedupe_preserve_order ["Acme".toList, "acme ".toList]) =
      dedupe_preserve_order ["Acme".toList, "acme ".toList] ∧
    dedupe_preserve_order ([] ++ "Acme".toList :: [] ++ "acme ".toList :: []) =
      dedupe_preserve_order ([] ++ "Acme".toList :: ([] ++ [])) := by
  have h := claim_C7 ["Acme".toList, "acme ".toList] [] [] [] []
    "Acme".toList "acme ".toList " ".toList (by decide) (by decide)
  exact ⟨h.1, h.2.2.2.2.1⟩

/-- C1 (amended): on a page classified as a LinkedIn search page whose
results list yields at least one non-noise name, `extract` returns exactly
the first-seen-order case-insensitive deduplication of those names with
provenance `linkedin_list` (so exactly N names whenever the N names are
pairwise distinct under the dedupe key), and every returned string comes
from the results list — no topcard or meta-tag candidate is included even
when such strings are present elsewhere in the markup. -/
theorem claim_C1 (d : Doc) (url : Str)
    (h1 : is_linkedin_search_page url (serialize d) = true)
    (h2 : linkedin_jobs_list_names d ≠ []) :
    extract_from_linkedin d url =
      (dedupe_preserve_order (linkedin_jobs_list_names d), "linkedin_list") ∧
    (∀ z ∈ (extract_from_linkedin d url).1,
      ∃ x ∈ linkedin_jobs_list_names d, z = stripWS x) ∧
    (((linkedin_jobs_list_names d).Pairwise (fun a b => key a ≠ key b) ∧
      (∀ x ∈ linkedin_jobs_list_names d, stripWS x = x ∧ key x ≠ [])) →
      (extract_from_linkedin d url).1 = linkedin_jobs_list_names d) := by
  have hne : (linkedin_jobs_list_names d).isEmpty = false := by
    cases hie : (linkedin_jobs_list_names d).isEmpty
    · rfl
    · exact absurd (List.isEmpty_iff.1 hie) h2
  have hb : (!(linkedin_jobs_list_names d).isEmpty) = true := by rw [hne]; rfl
  have he : extract_from_linkedin d url =
      (dedupe_preserve_order (linkedin_jobs_list_names d), "linkedin_list") := by
    unfold extract_from_linkedin
    rw [if_pos h1, if_pos hb]
  refine ⟨he, ?_, ?_⟩
  · intro z hz
    rw [he] at hz
    exact dedupeGo_mem [] _ z hz
  · intro ⟨hp, hstrip⟩
    rw [he]
    exact dedupeGo_eq_self [] _
      (fun z hz => ⟨(hstrip z hz).1, (hstrip z hz).2, by simp⟩) hp

/-- C1 witness: a search page whose results list yields the two distinct
names "Acme" and "Globex". -/
theorem claim_C1_witness :
    extract_from_linkedin docPair urlLi =
      (dedupe_preserve_order (linkedin_jobs_list_names docPair), "linkedin_list") :=
  (claim_C1 docPair urlLi (by decide) (by decide)).1

/-- C2: the extraction core is a total function: for every url and markup it
returns a (names, provenance) pair, the provenance is one of the four
dispatcher labels, and on empty markup the name list is empty (under any
lawful iteration order of the generic extractor's set). -/
theorem claim_C2 (fs : Str → Bool) (enum : List Str → List Str) (url : Str) (d : Doc)
    (henum : ∀ l, (enum l).Perm l) :
    (extract_company_names fs enum url NodeL.nil).1 = [] ∧
    ((extract_company_names fs enum url d).2 = "indeed" ∨
     (extract_company_names fs enum url d).2 = "linkedin_list" ∨
     (extract_company_names fs enum url d).2 = "linkedin_fallback" ∨
     (extract_company_names fs enum url d).2 = "generic") := by
  constructor
  · unfold extract_company_names
    split
    · rw [extract_from_indeed_nil]
    · split
      · rw [extract_from_linkedin_nil]
      · split
        · split
          · rw [extract_from_indeed_nil]
          · split
            · rw [extract_from_linkedin_nil]
            · rw [extract_generic_nil enum henum]
        · rw [extract_generic_nil enum henum]
  · unfold extract_company_names
    split
    · exact Or.inl rfl
    · split
      · exact Or.inr ((extract_from_linkedin_prov d url).imp_right Or.inl)
      · split
        · split
          · exact Or.inl rfl
          · split
            · exact Or.inr ((extract_from_linkedin_prov d url).imp_right Or.inl)
            · exact Or.inr (Or.inr (Or.inr rfl))
        · exact Or.inr (Or.inr (Or.inr rfl))

/-- C2 witness at concrete inputs. -/
theorem claim_C2_witness :
    (extract_company_names (fun _ => false) id urlGeneric NodeL.nil).1 = [] :=
  (claim_C2 (fun _ => false) id urlGeneric docAB (fun l => List.Perm.refl l)).1

/-- C4 (amended): every extraction result is free of duplicates under the
case-insensitive trimmed key; the Indeed and LinkedIn extractors return a
subsequence of their stripped candidate cascade (first-seen order); the
generic extractor's order instead depends on the iteration order of the
Python `set` it funnels candidates through, which is unspecified. -/
theorem claim_C4 (fs : Str → Bool) (enum : List Str → List Str) (url : Str) (d : Doc) :
    (extract_company_names fs enum url d).1.Pairwise (fun a b => key a ≠ key b) ∧
    (extract_from_indeed d).1.Sublist ((indeedCandidates d).map stripWS) ∧
    (extract_from_linkedin d url).1.Sublist ((linkedinCandidates d).map stripWS) := by
  refine ⟨?_, ?_, ?_⟩
  · unfold extract_company_names
    split
    · exact (dedupeGo_sound [] _).2
    · have hll : ∀ u : Str, (extract_from_linkedin d u).1.Pairwise (fun a b => key a ≠ key b) := by
        intro u
        unfold extract_from_linkedin
        split
        · split
          · exact (dedupeGo_sound [] _).2
          · exact (dedupeGo_sound [] _).2
        · exact (dedupeGo_sound [] _).2
      split
      · exact hll url
      · split
        · split
          · exact (dedupeGo_sound [] _).2
          · split
            · exact hll url
            · exact (dedupeGo_sound [] _).2
        · exact (dedupeGo_sound [] _).2
  · refine List.Sublist.trans (dedupeGo_sublist [] _) (List.Sublist.map stripWS ?_)
    exact List.filter_sublist (indeedCandidates d)
  · unfold extract_from_linkedin
    split
    · split
      · refine List.Sublist.trans (dedupeGo_sublist [] _) (List.Sublist.map stripWS ?_)
        unfold linkedinCandidates
        exact ((List.sublist_append_left _ _).trans
          (List.sublist_append_left _ _)).trans (List.sublist_append_left _ _)
      · refine List.Sublist.trans (dedupeGo_sublist [] _) (List.Sublist.map stripWS ?_)
        exact List.filter_sublist (linkedinCandidates d)
    · refine List.Sublist.trans (dedupeGo_sublist [] _) (List.Sublist.map stripWS ?_)
      exact List.filter_sublist (linkedinCandidates d)

/-- C5 (amended): on the generic page titled
`"Senior Engineer - Acme Corp - Jobs"` the second segment "Acme Corp" is
retained (under any lawful set-iteration order); but a title with no
separator does not yield an empty result: the whole (non-vocabulary,
non-noise) title survives as the single candidate, here
`"Welcome to Acme"`. -/
theorem claim_C5 (enum : List Str → List Str)
    (h1 : (enum (genericSetList docSEA)).Perm (genericSetList docSEA))
    (h2 : (enum (genericSetList docNoSep)).Perm (genericSetList docNoSep)) :
    "Acme Corp".toList ∈ (extract_generic enum docSEA).1 ∧
    (extract_generic enum docSEA).2 = "generic" ∧
    extract_generic enum docNoSep = (["Welcome to Acme".toList], "generic") := by
  have hset : genericSetList docSEA = ["Senior Engineer".toList, "Acme Corp".toList] := by decide
  have hset2 : genericSetList docNoSep = ["Welcome to Acme".toList] := by decide
  rw [hset] at h1
  rw [hset2] at h2
  have h2' : enum (genericSetList docNoSep) = ["Welcome to Acme".toList] :=
    List.perm_singleton.1 h2
  refine ⟨?_, rfl, ?_⟩
  · rcases perm_pair _ _ _ h1 with he | he
    · unfold extract_generic
      rw [hset, he]
      decide
    · unfold extract_generic
      rw [hset, he]
      decide
  · unfold extract_generic
    rw [hset2] at h2'
    rw [hset2, h2']
    decide

/-- C5 witness with the identity iteration order. -/
theorem claim_C5_witness :
    "Acme Corp".toList ∈ (extract_generic id docSEA).1 :=
  (claim_C5 id (List.Perm.refl _) (List.Perm.refl _)).1

/-- C10: for a local file whose host names neither engine, the dispatcher
sniffs the markup: any occurrence of "indeed" (case-insensitive) routes to
the Indeed extractor even when "linkedin" also occurs; "linkedin" without
"indeed" routes to the LinkedIn extractor; otherwise the generic
extractor runs. -/
theorem claim_C10 (fs : Str → Bool) (enum : List Str → List Str) (url : Str) (d : Doc)
    (hloc : is_local_path fs url = true)
    (hind : containsSub (domain url) ("indeed".toList) = false)
    (hli : containsSub (domain url) ("linkedin".toList) = false) :
    (containsCI (serialize d) ("indeed".toList) = true →
      extract_company_names fs enum url d = extract_from_indeed d) ∧
    (containsCI (serialize d) ("indeed".toList) = false →
      containsCI (serialize d) ("linkedin".toList) = true →
      extract_company_names fs enum url d = extract_from_linkedin d url) ∧
    (containsCI (serialize d) ("indeed".toList) = false →
      containsCI (serialize d) ("linkedin".toList) = false →
      extract_company_names fs enum url d = extract_generic enum d) := by
  unfold extract_company_names
  simp only [hind, hli, hloc]
  refine ⟨fun h => by simp only [h]; rfl,
          fun h h2 => by simp only [h, h2]; rfl,
          fun h h2 => by simp only [h, h2]; rfl⟩

/-- C10 witness: a local file whose markup mentions both engines routes to
the Indeed extractor. -/
theorem claim_C10_witness :
    extract_company_names fsOne id urlLocal docBoth = extract_from_indeed docBoth :=
  (claim_C10 fsOne id urlLocal docBoth (by decide) (by decide) (by decide)).1 (by decide)

/-! ### The normalizer's eventual idempotence (claim C6)

`clean_company_name` is not idempotent (see `claim_C6_cx`): stripping the
`"| Brand"` suffix can expose separator characters at the end that only the
next pass removes.  The second pass leaves only one thing to do — strip the
separator set — and after that the string is a fixed point.  The lemmas
below establish, in order: the output of `collapseWS` is `Collapsed`;
`Collapsed` text is a fixed point of `collapseWS`; `Collapsed` and `NoPB`
pass to contiguous substrings; the brand pattern is monotone under
extension, so `subBrand`'s output satisfies `NoPB` and `NoPB` text is a
fixed point of `subBrand`. -/

theorem chain_within {R : Char → Char → Prop} {l u : Str}
    (h : List.Chain' R l) (hu : u.IsInfix l) : List.Chain' R u :=
  List.Chain'.infix h hu

theorem collapseAux_props (l : Str) : ∀ b : Bool,
    ((∀ c ∈ collapseAux b l, isWS c = true → c = ' ') ∧
     List.Chain' (fun a b => ¬(a = ' ' ∧ b = ' ')) (collapseAux b l)) ∧
    (collapseAux true l).head? ≠ some ' ' := by
  induction l with
  | nil =>
    intro b
    refine ⟨⟨?_, ?_⟩, ?_⟩ <;> simp [collapseAux]
  | cons c cs ih =>
    intro b
    by_cases hw : isWS c = true
    · have et : collapseAux true (c :: cs) = collapseAux true cs := by
        simp [collapseAux, hw]
      have ef : collapseAux false (c :: cs) = ' ' :: collapseAux true cs := by
        simp [collapseAux, hw]
      have hm := ((ih true).1).1
      have hc := ((ih true).1).2
      have hh := (ih true).2
      refine ⟨?_, by rw [et]; exact hh⟩
      cases b
      · rw [ef]
        refine ⟨?_, ?_⟩
        · intro x hx hxw
          rcases List.mem_cons.1 hx with hx | hx
          · exact hx
          · exact hm x hx hxw
        · rw [List.chain'_cons']
          refine ⟨?_, hc⟩
          intro y hy
          intro ⟨_, hy2⟩
          exact hh (by rw [hy2] at hy; exact hy)
      · rw [et]
        exact ⟨hm, hc⟩
    · have eb : ∀ b' : Bool, collapseAux b' (c :: cs) = c :: collapseAux false cs := by
        intro b'
        simp [collapseAux, hw]
      have hm := ((ih false).1).1
      have hc := ((ih false).1).2
      have hcne : c ≠ ' ' := by
        intro he
        rw [he] at hw
        exact hw (by decide)
      refine ⟨?_, ?_⟩
      · rw [eb b]
        refine ⟨?_, ?_⟩
        · intro x hx hxw
          rcases List.mem_cons.1 hx with hx | hx
          · subst hx
            exact absurd hxw hw
          · exact hm x hx hxw
        · rw [List.chain'_cons']
          refine ⟨?_, hc⟩
          intro y _
          intro ⟨hy1, _⟩
          exact hcne hy1
      · rw [eb true]
        intro hhc
        rw [List.head?_cons] at hhc
        exact hcne (Option.some.inj hhc)

theorem collapseWS_collapsed (l : Str) : Collapsed (collapseWS l) :=
  ⟨((collapseAux_props l false).1).1, ((collapseAux_props l false).1).2⟩

theorem collapse_eq_self (l : Str) (h : Collapsed l) :
    collapseAux false l = l ∧ (l.head? ≠ some ' ' → collapseAux true l = l) := by
  induction l with
  | nil => exact ⟨rfl, fun _ => rfl⟩
  | cons c cs ih =>
    obtain ⟨h1, h2⟩ := h
    have hcs : Collapsed cs :=
      ⟨fun x hx => h1 x (List.mem_cons_of_mem c hx), h2.tail⟩
    obtain ⟨ihf, iht⟩ := ih hcs
    by_cases hw : isWS c = true
    · have hc : c = ' ' := h1 c (List.mem_cons_self c cs) hw
      subst hc
      have hhd : cs.head? ≠ some ' ' := by
        intro hh
        cases cs with
        | nil => exact absurd hh (by simp)
        | cons d ds =>
          have hr := (List.chain'_cons'.1 h2).1 d rfl
          rw [List.head?_cons] at hh
          exact hr ⟨rfl, Option.some.inj hh⟩
      constructor
      · have e : collapseAux false (' ' :: cs) = ' ' :: collapseAux true cs := by
          simp [collapseAux, show isWS ' ' = true from by decide]
        rw [e, iht hhd]
      · intro hcon
        rw [List.head?_cons] at hcon
        exact absurd rfl hcon
    · have e : ∀ b : Bool, collapseAux b (c :: cs) = c :: collapseAux false cs := by
        intro b
        simp [collapseAux, hw]
      exact ⟨by rw [e false, ihf], fun _ => by rw [e true, ihf]⟩

theorem collapseWS_eq_self (l : Str) (h : Collapsed l) : collapseWS l = l :=
  (collapse_eq_self l h).1

theorem collapsed_within {l u : Str} (h : Collapsed l) (hu : u.IsInfix l) : Collapsed u :=
  ⟨fun c hc hw => h.1 c (hu.subset hc) hw, chain_within h.2 hu⟩

theorem stripP_within (p : Char → Bool) (l : Str) : (stripP p l).IsInfix l := by
  unfold stripP
  have hA : (l.dropWhile p).IsSuffix l := List.dropWhile_suffix p
  have hB : ((l.dropWhile p).reverse.dropWhile p).IsSuffix (l.dropWhile p).reverse :=
    List.dropWhile_suffix p
  have hBr : (((l.dropWhile p).reverse.dropWhile p).reverse).IsPrefix (l.dropWhile p) := by
    rw [← List.reverse_reverse ((l.dropWhile p).reverse.dropWhile p)] at hB
    exact List.reverse_suffix.1 hB
  exact List.IsInfix.trans hBr.isInfix hA.isInfix

/-- The pipe-brand pattern is monotone under extension on the right: if it
matches at the head of `t` it matches at the head of every list `t` is a
prefix of (the pattern never needs to see past its own match). -/
theorem pipeBrandAt_mono (t u : Str) (h : pipeBrandAt t = true) (hp : t.IsPrefix u) :
    pipeBrandAt u = true := by
  obtain ⟨r, rfl⟩ := hp
  unfold pipeBrandAt at h ⊢
  cases ht : t.dropWhile isWS with
  | nil => rw [ht] at h; exact absurd h (by simp)
  | cons c rest =>
    rw [ht] at h
    rw [Bool.and_eq_true] at h
    obtain ⟨hc, hany⟩ := h
    have hne : (t.dropWhile isWS).isEmpty = false := by rw [ht]; rfl
    have hdw : (t ++ r).dropWhile isWS = c :: (rest ++ r) := by
      rw [List.dropWhile_append, hne]
      simp [ht]
    rw [hdw]
    rw [Bool.and_eq_true]
    refine ⟨hc, ?_⟩
    rw [List.any_eq_true] at hany ⊢
    obtain ⟨b, hb, hbpre⟩ := hany
    refine ⟨b, hb, ?_⟩
    rw [List.isPrefixOf_iff_prefix] at hbpre ⊢
    cases hd : rest.dropWhile isWS with
    | nil =>
      rw [hd] at hbpre
      have hbnil : b = [] := List.prefix_nil.1 (by simpa [lowerStr] using hbpre)
      rw [hbnil]
      exact List.nil_prefix
    | cons c2 rest2 =>
      have hne2 : (rest.dropWhile isWS).isEmpty = false := by rw [hd]; rfl
      have hdw2 : (rest ++ r).dropWhile isWS = rest.dropWhile isWS ++ r := by
        rw [List.dropWhile_append, hne2]
        rfl
      rw [hdw2]
      unfold lowerStr
      rw [List.map_append]
      exact List.IsPrefix.trans (by rwa [lowerStr] at hbpre) (List.prefix_append _ _)

theorem subBrand_pre (l : Str) : (subBrand l).IsPrefix l := by
  induction l with
  | nil => exact List.prefix_refl []
  | cons c cs ih =>
    rw [subBrand]
    split
    · exact List.nil_prefix
    · obtain ⟨r, hr⟩ := ih
      exact ⟨r, by rw [List.cons_append, hr]⟩

theorem noPB_subBrand (l : Str) : NoPB (subBrand l) := by
  induction l with
  | nil =>
    intro t ht
    rw [List.suffix_nil.1 ht]
    rfl
  | cons c cs ih =>
    rw [subBrand]
    split
    · intro t ht
      rw [List.suffix_nil.1 ht]
      rfl
    · rename_i hm
      intro t ht
      rcases List.suffix_cons_iff.1 ht with ht | ht
      · subst ht
        cases hpb : pipeBrandAt (c :: subBrand cs) with
        | false => rfl
        | true =>
          have hpre : (c :: subBrand cs).IsPrefix (c :: cs) := by
            obtain ⟨r, hr⟩ := subBrand_pre cs
            exact ⟨r, by rw [List.cons_append, hr]⟩
          exact absurd (pipeBrandAt_mono _ _ hpb hpre) hm
      · exact ih t ht

theorem noPB_within {l u : Str} (h : NoPB l) (hu : u.IsInfix l) : NoPB u := by
  intro t ht
  obtain ⟨pre, suf, rfl⟩ := hu
  obtain ⟨w, rfl⟩ := ht
  cases hpb : pipeBrandAt t with
  | false => rfl
  | true =>
    have hsuf : (t ++ suf).IsSuffix (pre ++ (w ++ t) ++ suf) :=
      ⟨pre ++ w, by simp [List.append_assoc]⟩
    have hfalse := h (t ++ suf) hsuf
    rw [pipeBrandAt_mono t (t ++ suf) hpb (List.prefix_append t suf)] at hfalse
    exact hfalse

theorem subBrand_eq_self (l : Str) (h : NoPB l) : subBrand l = l := by
  induction l with
  | nil => rfl
  | cons c cs ih =>
    rw [subBrand, if_neg]
    · rw [ih (fun t ht => h t (List.IsSuffix.trans ht (List.suffix_cons c cs)))]
    · rw [h (c :: cs) List.suffix_rfl]
      simp

/-- Whatever `clean_company_name` returns is whitespace-collapsed and free
of the brand pattern. -/
theorem clean_output_props (s : Str) :
    Collapsed (clean_company_name s) ∧ NoPB (clean_company_name s) := by
  unfold clean_company_name stripWS
  have h1 : Collapsed (collapseWS s) := collapseWS_collapsed s
  have h2 : Collapsed (stripP inSet1 (collapseWS s)) :=
    collapsed_within h1 (stripP_within inSet1 (collapseWS s))
  have h3 : Collapsed (subBrand (stripP inSet1 (collapseWS s))) :=
    collapsed_within h2 (subBrand_pre _).isInfix
  have n1 : NoPB (subBrand (stripP inSet1 (collapseWS s))) := noPB_subBrand _
  exact ⟨collapsed_within h3 (stripP_within isWS _), noPB_within n1 (stripP_within isWS _)⟩

/-- On whitespace-collapsed, brand-pattern-free text the normalizer reduces
to stripping the separator set from both ends. -/
theorem clean_of_collapsed (t : Str) (hc : Collapsed t) (hn : NoPB t) :
    clean_company_name t = stripP inSet1 t := by
  have hcu : Collapsed (stripP inSet1 t) := collapsed_within hc (stripP_within inSet1 t)
  have hnws : ∀ c : Char, c ∈ stripP inSet1 t → inSet1 c = false → isWS c = false := by
    intro c hmem hin
    cases hws : isWS c with
    | false => rfl
    | true =>
      have hsp : c = ' ' := hcu.1 c hmem hws
      rw [hsp] at hin
      exact absurd hin (by decide)
  unfold clean_company_name
  rw [collapseWS_eq_self t hc]
  rw [subBrand_eq_self _ (noPB_within hn (stripP_within inSet1 t))]
  unfold stripWS
  apply stripP_eq_self
  · intro c hh
    exact hnws c (List.mem_of_mem_head? (by rw [Option.mem_def]; exact hh))
      (stripP_head inSet1 t c hh)
  · intro c hl
    refine hnws c ?_ (stripP_getLast inSet1 t c hl)
    have hrev : c ∈ (stripP inSet1 t).reverse :=
      List.mem_of_mem_head? (by rw [Option.mem_def, List.head?_reverse]; exact hl)
    exact (List.mem_reverse).1 hrev

/-- C6 (amended): the normalizer is idempotent after one extra application —
`normalize (normalize (normalize s)) = normalize (normalize s)` for every
string, i.e. the image of the double application consists of fixed points;
the single application is not idempotent (see the counterexample). -/
theorem claim_C6 (s : Str) :
    clean_company_name (clean_company_name (clean_company_name s)) =
      clean_company_name (clean_company_name s) := by
  obtain ⟨hc, hn⟩ := clean_output_props s
  have h2 : clean_company_name (clean_company_name s) =
      stripP inSet1 (clean_company_name s) := clean_of_collapsed _ hc hn
  have hcu : Collapsed (stripP inSet1 (clean_company_name s)) :=
    collapsed_within hc (stripP_within inSet1 _)
  have hnu : NoPB (stripP inSet1 (clean_company_name s)) :=
    noPB_within hn (stripP_within inSet1 _)
  have h3 : clean_company_name (stripP inSet1 (clean_company_name s)) =
      stripP inSet1 (stripP inSet1 (clean_company_name s)) :=
    clean_of_collapsed _ hcu hnu
  rw [h2, h3, stripP_idem]

/-- C6 witness at a concrete input. -/
theorem claim_C6_witness :
    clean_company_name (clean_company_name (clean_company_name ("Acme - | LinkedIn".toList))) =
      clean_company_name (clean_company_name ("Acme - | LinkedIn".toList)) :=
  claim_C6 ("Acme - | LinkedIn".toList)

end JobScraper
